import Mathlib

/-!
# SoarchainObserver — verification of the ingestion pipeline

Shallow embedding of the SoarchainObserver repository's ingestion pipeline
(`internal/blockchain/websocket.go`, `internal/models/*.go`, and the two
`main.go` variants containing the `GetMinerStatus` HTTP handler).

Modelling conventions:
* Go `int64` values are `Int` together with explicit two's-complement
  wrapping (`wrap64`) at every point where the Go code performs 64-bit
  addition; `strconv.ParseInt` range checking is modelled exactly.
* Timestamps (`time.Time`) are abstract instants measured in nanoseconds,
  modelled as `Int` (the zero value `0` plays the role of Go's zero time).
* The relational store (gorm) is modelled as lists of rows; `First` with a
  condition is `List.find?`, `Create` appends, `Save` replaces the row with
  the matching key.  Each fallible store call is given an explicit boolean
  failure switch (`DbFails`) modelling "some DB error"; a failure makes the
  surrounding code roll the transaction back, i.e. return the state from
  before `Begin`.
* `encoding/json` is external; the outcome of the type assertion and
  `json.Unmarshal` on one element of `message.client_data` is modelled by
  the inductive `RawClientData` (not a string / malformed JSON / decoded
  record), exactly the three branches taken by `processMessage`.
-/

set_option maxHeartbeats 1000000

namespace SoarchainObserver

/-! ## Data model (internal/models) -/

/-- `models.Client` (one row per blockchain address).  Field
`TotalLifetimeEarnings` is a Go `int64`; `LastChallengeTime` a timestamp. -/
structure Client where
  Address : String
  PubKey : String
  SolanaAddress : String
  TotalLifetimeEarnings : Int
  LastChallengeTime : Int
deriving DecidableEq

/-- `models.ClientEarning` (append-only per-event earnings record).  The
surrogate `ID` column is never read by the pipeline and is omitted. -/
structure ClientEarning where
  ClientAddress : String
  Earnings : Int
  Timestamp : Int
deriving DecidableEq

/-- `models.EpochEarnings` (rolling per-(client, epoch) aggregate).  `ID` is
the gorm surrogate primary key; `Save` writes back through it. -/
structure EpochEarnings where
  ID : Nat
  ClientAddress : String
  EpochNumber : Int
  StartTime : Int
  EndTime : Int
  TotalEarnings : Int
  CreatedAt : Int
  UpdatedAt : Int
deriving DecidableEq

/-- `blockchain.EpochInfo` (parsed epoch-oracle response). `Duration` in
nanoseconds, like Go's `time.Duration`. -/
structure EpochInfo where
  Identifier : String
  Duration : Int
  CurrentEpoch : Int
  CurrentEpochStart : Int
deriving DecidableEq

/-! ## 64-bit integer arithmetic -/

/-- Smallest Go `int64` value. -/
def int64Lo : Int := -(2 ^ 63)

/-- Largest Go `int64` value. -/
def int64Hi : Int := 2 ^ 63 - 1

/-- Two's-complement wrap-around of Go `int64` addition. -/
def wrap64 (x : Int) : Int := (x + 2 ^ 63) % 2 ^ 64 - 2 ^ 63

/-! ## Earnings normalization (`parseEarnings`, websocket.go lines 316–324) -/

/-- Decimal digit test, as in Go's `strconv` integer syntax for base 10. -/
def isDecDigit (c : Char) : Bool := '0' ≤ c && c ≤ '9'

/-- Value of a digit string (most significant first). -/
def digitsToNat (ds : List Char) : Nat :=
  ds.foldl (fun acc c => acc * 10 + (c.toNat - '0'.toNat)) 0

/-- `strconv.ParseInt(s, 10, 64)`: an optional leading sign, then one or more
decimal digits; the value must fit in `int64`, otherwise (as on any syntax
error) Go reports a non-nil error, modelled as `none`. -/
def parseInt64 (s : String) : Option Int :=
  let cs := s.toList
  let signDigits : Int × List Char :=
    match cs with
    | '+' :: rest => (1, rest)
    | '-' :: rest => (-1, rest)
    | rest => (1, rest)
  if signDigits.2.isEmpty then none
  else if signDigits.2.all isDecDigit then
    let v : Int := signDigits.1 * (digitsToNat signDigits.2 : Int)
    if int64Lo ≤ v ∧ v ≤ int64Hi then some v else none
  else none

/-- Go `strings.TrimSuffix`: drop `suffix` if `s` ends with it, else return
`s` unchanged.  (Go compares bytes; for a UTF-8 string a byte-level suffix
match coincides with the character-level one used here.) -/
def trimSuffix (s suffix : String) : String :=
  if suffix.toList.isSuffixOf s.toList then
    (s.toList.take (s.toList.length - suffix.toList.length)).asString
  else s

/-- `parseEarnings` (websocket.go): `strings.TrimSuffix(s, "usoar")`, then
`strconv.ParseInt(_, 10, 64)`; any parse error yields `0`. -/
def parseEarnings (earningsStr : String) : Int :=
  match parseInt64 (trimSuffix earningsStr "usoar") with
  | some v => v
  | none => 0

/-! ## Store model -/

/-- The three tables the pipeline writes, plus the surrogate-key counter for
`epoch_earnings` inserts. -/
structure DBState where
  clients : List Client
  earnings : List ClientEarning
  epochs : List EpochEarnings
  nextEpochId : Nat
deriving DecidableEq

def emptyDB : DBState := ⟨[], [], [], 0⟩

/-- `tx.First(&client, "address = ?", a)`. -/
def findClient (st : DBState) (addr : String) : Option Client :=
  st.clients.find? (fun c => c.Address == addr)

/-- `tx.Where("client_address = ? AND epoch_number = ?", ca, n).First(...)`. -/
def findEpoch (st : DBState) (ca : String) (n : Int) : Option EpochEarnings :=
  st.epochs.find? (fun e => e.ClientAddress == ca && e.EpochNumber == n)

/-- `tx.Save(&client)`: write the row back through its primary key. -/
def saveClientRow (st : DBState) (c : Client) : DBState :=
  { st with clients := st.clients.map (fun r => if r.Address == c.Address then c else r) }

/-- One decoded element of `message.client_data` (the struct
`processMessage` unmarshals each payload string into). -/
structure ClientData where
  Address : String
  Earnings : String
  PubKey : String
  SolanaAddress : String
deriving DecidableEq

/-- Outcome of the `clientDataRaw.(string)` assertion plus `json.Unmarshal`
on one element of `message.client_data` — the three branches taken by
`processMessage` (lines 216–232). -/
inductive RawClientData
  | notString
  | badJSON
  | decoded (cd : ClientData)
deriving DecidableEq

/-- Failure switches for the fallible store calls inside one per-event
transaction.  `true` means the call reports "some DB error". -/
structure DbFails where
  queryClient : Bool
  createClient : Bool
  saveClient : Bool
  createEarning : Bool
  queryEpoch : Bool
  createEpoch : Bool
  saveEpoch : Bool
deriving DecidableEq

def noFails : DbFails := ⟨false, false, false, false, false, false, false⟩

/-- Alternate-address resolution (websocket.go lines 234–242): take the
positionally aligned entry of the `solana_address` array if the index is in
range (a non-string entry yields the zero value `""`), then let a non-empty
embedded `solanaAddress` field win. -/
def resolveSolanaAddress (solanaAddressList : List (Option String)) (i : Nat)
    (cd : ClientData) : String :=
  let fromList :=
    if i < solanaAddressList.length then (solanaAddressList.getD i none).getD "" else ""
  if cd.SolanaAddress != "" then cd.SolanaAddress else fromList

/-- `upsertEpochEarnings` (websocket.go lines 327–370): look up the
`(client_address, epoch_number)` row; create it (seeding `StartTime`,
`EndTime := StartTime + Duration`, `TotalEarnings := earningsValue`) when
absent, else accumulate `TotalEarnings` and bump `UpdatedAt`.  `none` models
a returned error (the caller rolls back). -/
def upsertEpochEarnings (f : DbFails) (now : Int) (st : DBState)
    (clientAddress : String) (earningsValue : Int) (epochInfo : EpochInfo) :
    Option DBState :=
  if f.queryEpoch then none
  else
    match findEpoch st clientAddress epochInfo.CurrentEpoch with
    | none =>
      if f.createEpoch then none
      else
        let epochRecord : EpochEarnings :=
          { ID := st.nextEpochId, ClientAddress := clientAddress,
            EpochNumber := epochInfo.CurrentEpoch,
            StartTime := epochInfo.CurrentEpochStart,
            EndTime := epochInfo.CurrentEpochStart + epochInfo.Duration,
            TotalEarnings := earningsValue, CreatedAt := now, UpdatedAt := now }
        some { st with
                epochs := st.epochs ++ [epochRecord],
                nextEpochId := st.nextEpochId + 1 }
    | some r =>
      if f.saveEpoch then none
      else some { st with
        epochs := st.epochs.map (fun e =>
          if e.ID == r.ID then
            { r with
                TotalEarnings := wrap64 (r.TotalEarnings + earningsValue),
                UpdatedAt := now }
          else e) }

/-- The client upsert block of the per-event transaction (websocket.go
lines 249–286): query by primary address; insert a fresh row when absent,
else accumulate `TotalLifetimeEarnings`, overwrite `SolanaAddress` only when
the resolved value is non-empty, and stamp `LastChallengeTime`.  `none`
models any error branch (the caller rolls back and skips the event). -/
def clientUpsert (f : DbFails) (st : DBState) (cd : ClientData)
    (solanaAddress : String) (earningsValue : Int) (timestamp : Int) :
    Option DBState :=
  if f.queryClient then none
  else
    match findClient st cd.Address with
    | none =>
      if f.createClient then none
      else
        let client : Client :=
          { Address := cd.Address, PubKey := cd.PubKey, SolanaAddress := solanaAddress,
            TotalLifetimeEarnings := earningsValue, LastChallengeTime := timestamp }
        some { st with clients := st.clients ++ [client] }
    | some client =>
      if f.saveClient then none
      else some (saveClientRow st { client with
        TotalLifetimeEarnings := wrap64 (client.TotalLifetimeEarnings + earningsValue),
        SolanaAddress := if solanaAddress != "" then solanaAddress else client.SolanaAddress,
        LastChallengeTime := timestamp })

/-- Ghost record of one committed per-event transaction: the primary address
of the event, the epoch number it was bucketed into, and the
`ClientEarning` row it inserted. -/
structure AppliedEvent where
  address : String
  epochNumber : Int
  row : ClientEarning
deriving DecidableEq

/-- Tail of the per-event transaction after the client upsert succeeded
(websocket.go lines 288–309): insert the `ClientEarning` row — keyed by the
*embedded* `clientData.SolanaAddress` — then upsert `epoch_earnings` under
the same key, then commit.  `st` is the state at `Begin` (the rollback
target), `st1` the in-transaction state after the client upsert. -/
def finishEvent (f : DbFails) (st st1 : DBState) (cd : ClientData)
    (earningsValue : Int) (epochInfo : EpochInfo) (now : Int) :
    DBState × Option AppliedEvent :=
  if f.createEarning then (st, none)
  else
    match upsertEpochEarnings f now { st1 with earnings := st1.earnings ++ [{ ClientAddress := cd.SolanaAddress, Earnings := earningsValue, Timestamp := now }] } cd.SolanaAddress earningsValue epochInfo with
    | none => (st, none)
    | some st3 =>
      (st3, some { address := cd.Address, epochNumber := epochInfo.CurrentEpoch, row := { ClientAddress := cd.SolanaAddress, Earnings := earningsValue, Timestamp := now } })

/-- One iteration of the `processMessage` loop (websocket.go lines 216–312)
acting on one element of `message.client_data`: skip non-strings and
malformed JSON, otherwise run the per-event transaction; any failing store
call rolls the whole transaction back (result `(st, none)`). -/
def processOneEvent (st : DBState) (i : Nat) (raw : RawClientData) (f : DbFails)
    (solanaAddressList : List (Option String)) (epochInfo : EpochInfo)
    (now : Int) : DBState × Option AppliedEvent :=
  match raw with
  | .notString => (st, none)
  | .badJSON => (st, none)
  | .decoded cd =>
    match clientUpsert f st cd (resolveSolanaAddress solanaAddressList i cd)
        (parseEarnings cd.Earnings) now with
    | none => (st, none)
    | some st1 => finishEvent f st st1 cd (parseEarnings cd.Earnings) epochInfo now

/-- The `for i, clientDataRaw := range clientDataList` loop of
`processMessage`, threading the store state and collecting the ghost log of
committed events.  `clock i` is the `time.Now()` instant observed while
processing element `i`. -/
def processEvents (solanaAddressList : List (Option String)) (epochInfo : EpochInfo)
    (clock : Nat → Int) :
    Nat → DBState → List (RawClientData × DbFails) → DBState × List AppliedEvent
  | _, st, [] => (st, [])
  | i, st, (raw, f) :: rest =>
    let r1 := processOneEvent st i raw f solanaAddressList epochInfo (clock i)
    let r2 := processEvents solanaAddressList epochInfo clock (i + 1) r1.1 rest
    (r2.1, r1.2.toList ++ r2.2)

/-- One raw stream message after the `result.events` extraction of
`processMessage` (lines 179–214): the `message.client_data` elements (with
their store-failure switches), the parallel `solana_address` array, and the
outcome of the per-message `getCurrentEpoch()` call (`none` = fetch error,
which skips the whole message). -/
structure MessageInput where
  clientDataList : List (RawClientData × DbFails)
  solanaAddressList : List (Option String)
  epochFetch : Option EpochInfo
  clock : Nat → Int

/-- `processMessage`: fetch the epoch once, then run the per-client loop. -/
def processMessage (m : MessageInput) (st : DBState) : DBState × List AppliedEvent :=
  match m.epochFetch with
  | none => (st, [])
  | some epochInfo =>
    processEvents m.solanaAddressList epochInfo m.clock 0 st m.clientDataList

/-- A whole run of the read loop's message processing, from consecutive
messages, with the ghost log of all committed events in order. -/
def processMessages : List MessageInput → DBState → DBState × List AppliedEvent
  | [], st => (st, [])
  | m :: ms, st =>
    let r1 := processMessage m st
    let r2 := processMessages ms r1.1
    (r2.1, r1.2 ++ r2.2)

/-! ## Ghost-log sums and run invariants -/

/-- Sum of the inserted earnings amounts of the committed events whose
primary `address` is `a` (the "N corresponding EarningsRecord rows"). -/
def sumFor (a : String) (log : List AppliedEvent) : Int :=
  ((log.filter (fun ev => ev.address == a)).map (fun ev => ev.row.Earnings)).sum

/-- The committed events bucketed under epoch key `(ca, n)` (the key used by
`upsertEpochEarnings`, i.e. the embedded `solanaAddress`). -/
def epochEvents (ca : String) (n : Int) (log : List AppliedEvent) : List AppliedEvent :=
  log.filter (fun ev => ev.row.ClientAddress == ca && ev.epochNumber == n)

/-- Sum of the amounts of the committed events under epoch key `(ca, n)`. -/
def epochSumFor (ca : String) (n : Int) (log : List AppliedEvent) : Int :=
  ((epochEvents ca n log).map (fun ev => ev.row.Earnings)).sum

/-- Invariant tying the `clients` table to the ghost log: unique primary
addresses; every row's lifetime total is the (64-bit) sum of the amounts of
its committed events; an absent address has no committed events. -/
structure ClientsInv (cs : List Client) (log : List AppliedEvent) : Prop where
  uniq : (cs.map (fun c => c.Address)).Nodup
  total : ∀ c ∈ cs, c.TotalLifetimeEarnings = wrap64 (sumFor c.Address log)
  absent : ∀ a : String, a ∉ cs.map (fun c => c.Address) →
    log.filter (fun ev => ev.address == a) = []

/-- Invariant tying the `epoch_earnings` table to the ghost log: unique
`(client_address, epoch_number)` keys, unique and bounded surrogate IDs, and
every row's total is the (64-bit) sum of the amounts bucketed to its key. -/
structure EpochsInv (es : List EpochEarnings) (nid : Nat) (log : List AppliedEvent) : Prop where
  uniqKey : (es.map (fun e => (e.ClientAddress, e.EpochNumber))).Nodup
  uniqId : (es.map (fun e => e.ID)).Nodup
  idLt : ∀ e ∈ es, e.ID < nid
  total : ∀ e ∈ es, e.TotalEarnings = wrap64 (epochSumFor e.ClientAddress e.EpochNumber log)
  absent : ∀ (ca : String) (n : Int), (ca, n) ∉ es.map (fun e => (e.ClientAddress, e.EpochNumber)) →
    epochEvents ca n log = []

/-- Full reconciliation invariant of a run: clients and epoch aggregates
match the ghost log, and the `client_earnings` table is exactly the list of
rows inserted by committed events. -/
def FullInv (st : DBState) (log : List AppliedEvent) : Prop :=
  ClientsInv st.clients log ∧ EpochsInv st.epochs st.nextEpochId log ∧
    st.earnings = log.map (fun ev => ev.row)

/-- Lifetime total of the client row for address `a` (`0` when absent). -/
def clientTotal (st : DBState) (a : String) : Int :=
  match findClient st a with
  | some c => c.TotalLifetimeEarnings
  | none => 0

/-! ## Miner status endpoint (`GetMinerStatus`)

The repository contains two `main.go` variants, each with a `GetMinerStatus`
handler.  One derives the last activity instant from the `Client` row's
`LastChallengeTime`; the other from the newest `ClientEarning` timestamp.
Both compare `time.Now().Sub(last).Minutes()` — a `float64` number of
minutes — against 2 and 5; over integer nanosecond timestamps those
comparisons are exactly `diffNs ≤ 2·60·10⁹` etc. (the quotient is off from
the nearest representable double by far less than the gap to the
threshold, so the float comparison and the exact one agree). -/

structure StatusResult where
  status : String
  issues : List String
deriving DecidableEq

/-- One minute in nanoseconds. -/
def minuteNs : Int := 60 * 1000000000

/-- `fetchLastChallengeTime` (earnings-log variant): newest `Timestamp` among
the `ClientEarning` rows for `solanaWallet`; the zero time (here `0`) when no
row exists. -/
def fetchLastChallengeTime (st : DBState) (solanaWallet : String) : Int :=
  match (st.earnings.filter (fun e => e.ClientAddress == solanaWallet)).map
      (fun e => e.Timestamp) with
  | [] => 0
  | t :: ts => ts.foldl max t

/-- `GetMinerStatus` of the `main.go` variant that reads the newest
`ClientEarning` row: `lastChallengeTime.IsZero()` ⇒ Down/Offline, diff ≤ 2
min ⇒ Up, 2 < diff < 5 min ⇒ Degraded/HighLatency, else Down/Offline. -/
def GetMinerStatusFromEarnings (st : DBState) (solanaWallet : String)
    (now : Int) : StatusResult :=
  if fetchLastChallengeTime st solanaWallet == 0 then
    { status := "Down", issues := ["Offline"] }
  else
    if now - fetchLastChallengeTime st solanaWallet ≤ 2 * minuteNs then
      { status := "Up", issues := [] }
    else if 2 * minuteNs < now - fetchLastChallengeTime st solanaWallet
        ∧ now - fetchLastChallengeTime st solanaWallet < 5 * minuteNs then
      { status := "Degraded", issues := ["HighLatency"] }
    else
      { status := "Down", issues := ["Offline"] }

/-- `GetMinerStatus` of the `main.go` variant that reads the `Client` row
directly (`db.Where("solana_address = ?", wallet).First(&client)`): a
missing row or a zero `LastChallengeTime` ⇒ Down/Offline, diff ≤ 2 min ⇒
Up, 2 < diff < 5 min ⇒ status string `"immobile"` with issue `"Latency"`,
else Down/Offline. -/
def GetMinerStatusFromClient (client : Option Client) (now : Int) : StatusResult :=
  match client with
  | none => { status := "Down", issues := ["Offline"] }
  | some c =>
    if c.LastChallengeTime == 0 then { status := "Down", issues := ["Offline"] }
    else
      if now - c.LastChallengeTime ≤ 2 * minuteNs then
        { status := "Up", issues := [] }
      else if 2 * minuteNs < now - c.LastChallengeTime
          ∧ now - c.LastChallengeTime < 5 * minuteNs then
        { status := "immobile", issues := ["Latency"] }
      else
        { status := "Down", issues := ["Offline"] }

/-! ## Connection lifecycle (`ReadBlocks` / `handleReconnection`)

`ReadBlocks` loops forever: a successful read processes one message and
reads again; a failed read enters `handleReconnection`, which sleeps 5
seconds and retries `Connect` until it succeeds, then resumes reading.  The
oracles `readOk k` / `connectOk k` give the outcome of the k-th read /
k-th reconnection attempt. -/

inductive ConnPhase
  | subscribed
  | reconnecting
deriving DecidableEq

/-- Connection-loop state: the phase, how many reads and connect attempts
have happened, and the total seconds spent in `time.Sleep(5 * time.Second)`
calls of `handleReconnection`. -/
structure ConnState where
  phase : ConnPhase
  readIdx : Nat
  connIdx : Nat
  sleptSeconds : Nat
deriving DecidableEq

/-- One step of the `ReadBlocks` / `handleReconnection` loops. -/
def connStep (readOk connectOk : Nat → Bool) (s : ConnState) : ConnState :=
  match s.phase with
  | .subscribed =>
    if readOk s.readIdx then { s with readIdx := s.readIdx + 1 }
    else { s with phase := .reconnecting, readIdx := s.readIdx + 1 }
  | .reconnecting =>
    if connectOk s.connIdx then
      { s with
          phase := .subscribed,
          connIdx := s.connIdx + 1,
          sleptSeconds := s.sleptSeconds + 5 }
    else
      { s with
          connIdx := s.connIdx + 1,
          sleptSeconds := s.sleptSeconds + 5 }

/-- Iterate the connection loop `k` steps. -/
def connIter (readOk connectOk : Nat → Bool) : Nat → ConnState → ConnState
  | 0, s => s
  | k + 1, s => connIter readOk connectOk k (connStep readOk connectOk s)

/-! ## Concrete runs used as witnesses -/

/-- A fixed epoch-oracle result (epoch 33 of one day). -/
def exEpoch : EpochInfo :=
  { Identifier := "day", Duration := 86400000000000, CurrentEpoch := 33,
    CurrentEpochStart := 1000 }

/-- A message carrying two well-formed events for client `A1`. -/
def exMsgTwo : MessageInput :=
  { clientDataList :=
      [(.decoded { Address := "A1", Earnings := "5usoar", PubKey := "PK", SolanaAddress := "S" }, noFails),
       (.decoded { Address := "A1", Earnings := "7usoar", PubKey := "PK", SolanaAddress := "S" }, noFails)],
    solanaAddressList := [], epochFetch := some exEpoch, clock := fun _ => 0 }

/-- State after one committed event crediting `A1` with 10. -/
def exStCredited : DBState :=
  (processOneEvent emptyDB 0
    (.decoded { Address := "A1", Earnings := "10usoar", PubKey := "PK", SolanaAddress := "S" })
    noFails [] exEpoch 0).1

/-- An existing epoch row used to exercise the update path. -/
def exEpochRow : EpochEarnings :=
  { ID := 0, ClientAddress := "S", EpochNumber := 33, StartTime := 1000,
    EndTime := 2000, TotalEarnings := 5, CreatedAt := 0, UpdatedAt := 0 }

/-- A store holding just that epoch row. -/
def exStEpoch : DBState := ⟨[], [], [exEpochRow], 1⟩

/-- An oracle result for the same epoch number whose window (start/duration)
has shifted relative to the stored row. -/
def exEpochShifted : EpochInfo :=
  { Identifier := "day", Duration := 77, CurrentEpoch := 33, CurrentEpochStart := 999999 }

/-- The stored row after accumulating 7 under the shifted oracle: only
`TotalEarnings` and `UpdatedAt` changed. -/
def exEpochRowAfter : EpochEarnings :=
  { ID := 0, ClientAddress := "S", EpochNumber := 33, StartTime := 1000,
    EndTime := 2000, TotalEarnings := 12, CreatedAt := 0, UpdatedAt := 50 }

/-- The store after accumulating 7 into the row under the shifted oracle. -/
def exStEpochAfter : DBState := ⟨[], [], [exEpochRowAfter], 1⟩

/-! ## Arithmetic, parsing and ghost-log lemmas -/

theorem wrap64_eq_self {x : Int} (h1 : int64Lo ≤ x) (h2 : x ≤ int64Hi) :
    wrap64 x = x := by
  unfold wrap64
  unfold int64Lo at h1
  unfold int64Hi at h2
  rw [Int.emod_eq_of_lt (by omega) (by omega)]
  omega

theorem wrap64_wrap_add (a b : Int) : wrap64 (wrap64 a + b) = wrap64 (a + b) := by
  unfold wrap64
  have h : (a + 2 ^ 63) % 2 ^ 64 - 2 ^ 63 + b + 2 ^ 63 = (a + 2 ^ 63) % 2 ^ 64 + b := by ring
  rw [h, Int.emod_add_emod]
  ring_nf

theorem wrap64_lo (x : Int) : int64Lo ≤ wrap64 x := by
  unfold wrap64 int64Lo
  have := Int.emod_nonneg (x + 2 ^ 63) (b := 2 ^ 64) (by norm_num)
  omega

theorem wrap64_hi (x : Int) : wrap64 x ≤ int64Hi := by
  unfold wrap64 int64Hi
  have := Int.emod_lt_of_pos (x + 2 ^ 63) (b := 2 ^ 64) (by norm_num)
  omega

theorem parseInt64_range {s : String} {v : Int} (h : parseInt64 s = some v) :
    int64Lo ≤ v ∧ v ≤ int64Hi := by
  unfold parseInt64 at h
  dsimp only at h
  split at h
  · exact absurd h (by simp)
  · split at h
    · split at h
      · rename_i hr
        cases h
        exact hr
      · exact absurd h (by simp)
    · exact absurd h (by simp)

theorem parseEarnings_lo (s : String) : int64Lo ≤ parseEarnings s := by
  unfold parseEarnings
  cases h : parseInt64 (trimSuffix s "usoar") with
  | none => unfold int64Lo; norm_num
  | some v => exact (parseInt64_range h).1

theorem parseEarnings_hi (s : String) : parseEarnings s ≤ int64Hi := by
  unfold parseEarnings
  cases h : parseInt64 (trimSuffix s "usoar") with
  | none => unfold int64Hi; norm_num
  | some v => exact (parseInt64_range h).2

theorem sumFor_append (a : String) (l1 l2 : List AppliedEvent) :
    sumFor a (l1 ++ l2) = sumFor a l1 + sumFor a l2 := by
  unfold sumFor
  rw [List.filter_append, List.map_append, List.sum_append]

theorem sumFor_single_match {a : String} {ev : AppliedEvent} (h : ev.address = a) :
    sumFor a [ev] = ev.row.Earnings := by
  unfold sumFor
  simp [List.filter, h]

theorem sumFor_single_miss {a : String} {ev : AppliedEvent} (h : ev.address ≠ a) :
    sumFor a [ev] = 0 := by
  unfold sumFor
  have hb : (ev.address == a) = false := beq_eq_false_iff_ne.mpr h
  simp [List.filter, hb]

theorem epochSumFor_append (ca : String) (n : Int) (l1 l2 : List AppliedEvent) :
    epochSumFor ca n (l1 ++ l2) = epochSumFor ca n l1 + epochSumFor ca n l2 := by
  unfold epochSumFor epochEvents
  rw [List.filter_append, List.map_append, List.sum_append]

theorem epochSumFor_single_match {ca : String} {n : Int} {ev : AppliedEvent}
    (hca : ev.row.ClientAddress = ca) (hn : ev.epochNumber = n) :
    epochSumFor ca n [ev] = ev.row.Earnings := by
  unfold epochSumFor epochEvents
  simp [List.filter, hca, hn]

theorem epochSumFor_single_miss {ca : String} {n : Int} {ev : AppliedEvent}
    (h : ¬(ev.row.ClientAddress = ca ∧ ev.epochNumber = n)) :
    epochSumFor ca n [ev] = 0 := by
  unfold epochSumFor epochEvents
  by_cases hca : ev.row.ClientAddress = ca
  · have hn : ev.epochNumber ≠ n := fun hn => h ⟨hca, hn⟩
    have hb : (ev.epochNumber == n) = false := beq_eq_false_iff_ne.mpr hn
    simp [List.filter, hca, hb]
  · have hb : (ev.row.ClientAddress == ca) = false := beq_eq_false_iff_ne.mpr hca
    simp [List.filter, hb]

theorem fullInv_empty : FullInv emptyDB [] := by
  refine ⟨⟨?_, ?_, ?_⟩, ⟨?_, ?_, ?_, ?_, ?_⟩, ?_⟩ <;> simp [emptyDB, epochEvents]

/-! ## Frame lemmas -/

theorem clientUpsert_frame {f : DbFails} {st : DBState} {cd : ClientData}
    {sa : String} {v ts : Int} {st1 : DBState}
    (h : clientUpsert f st cd sa v ts = some st1) :
    st1.earnings = st.earnings ∧ st1.epochs = st.epochs ∧
      st1.nextEpochId = st.nextEpochId := by
  unfold clientUpsert at h
  split at h
  · simp at h
  · split at h
    · split at h
      · simp at h
      · cases h
        exact ⟨rfl, rfl, rfl⟩
    · split at h
      · simp at h
      · cases h
        exact ⟨rfl, rfl, rfl⟩

theorem upsertEpochEarnings_frame {f : DbFails} {now : Int} {st : DBState}
    {ca : String} {v : Int} {ep : EpochInfo} {st3 : DBState}
    (h : upsertEpochEarnings f now st ca v ep = some st3) :
    st3.clients = st.clients ∧ st3.earnings = st.earnings := by
  unfold upsertEpochEarnings at h
  split at h
  · simp at h
  · split at h
    · split at h
      · simp at h
      · cases h
        exact ⟨rfl, rfl⟩
    · split at h
      · simp at h
      · cases h
        exact ⟨rfl, rfl⟩

/-! ## Preservation of the client invariant -/

theorem saveClientRow_addr (st : DBState) (c : Client) :
    (saveClientRow st c).clients.map (fun r => r.Address)
      = st.clients.map (fun r => r.Address) := by
  unfold saveClientRow
  simp only [List.map_map]
  apply List.map_congr_left
  intro r _
  by_cases hb : (r.Address == c.Address) = true
  · simp only [Function.comp_apply, hb, if_true]
    exact (eq_of_beq hb).symm
  · have hne : ¬(r.Address = c.Address) := fun q => hb (beq_iff_eq.mpr q)
    simp [Function.comp_apply, hne]

theorem sumFor_of_filter_nil {a : String} {log : List AppliedEvent}
    (h : log.filter (fun ev => ev.address == a) = []) : sumFor a log = 0 := by
  unfold sumFor
  rw [h]
  simp

/-- Effect of `tx.Save` of an updated client row on the invariant: `X` is the
row written back, agreeing with `client` on the primary address and carrying
the accumulated lifetime total. -/
theorem clientsInv_save {st : DBState} {log : List AppliedEvent} {ev : AppliedEvent}
    {client X : Client}
    (hin : ClientsInv st.clients log)
    (hmem : client ∈ st.clients) (haddr : client.Address = ev.address)
    (hXaddr : X.Address = client.Address)
    (hXtot : X.TotalLifetimeEarnings
      = wrap64 (client.TotalLifetimeEarnings + ev.row.Earnings)) :
    ClientsInv (saveClientRow st X).clients (log ++ [ev]) := by
  constructor
  · rw [saveClientRow_addr]
    exact hin.uniq
  · intro x hx
    unfold saveClientRow at hx
    simp only [List.mem_map] at hx
    obtain ⟨r, hr, rfl⟩ := hx
    by_cases hb : (r.Address == X.Address) = true
    · rw [if_pos hb]
      have htot := hin.total client hmem
      rw [haddr] at htot
      rw [hXtot, hXaddr, haddr, htot, wrap64_wrap_add, sumFor_append,
        sumFor_single_match rfl]
    · rw [if_neg hb]
      have hrne : ev.address ≠ r.Address := by
        intro hq
        apply hb
        apply beq_iff_eq.mpr
        rw [hXaddr, haddr]
        exact hq.symm
      rw [sumFor_append, sumFor_single_miss hrne, add_zero]
      exact hin.total r hr
  · intro a ha
    rw [saveClientRow_addr] at ha
    have hane : ev.address ≠ a := by
      intro hq
      apply ha
      rw [← hq, ← haddr]
      exact List.mem_map_of_mem _ hmem
    rw [List.filter_append, hin.absent a ha]
    have hb2 : (ev.address == a) = false := beq_eq_false_iff_ne.mpr hane
    simp [List.filter, hb2]

/-- The client upsert preserves the client invariant, extending the ghost log
with the event being committed. -/
theorem clientsInv_clientUpsert {f : DbFails} {st : DBState} {cd : ClientData}
    {sa : String} {ts : Int} {st1 : DBState} {log : List AppliedEvent}
    {ev : AppliedEvent}
    (hin : ClientsInv st.clients log)
    (h : clientUpsert f st cd sa (parseEarnings cd.Earnings) ts = some st1)
    (hev_addr : ev.address = cd.Address)
    (hev_amt : ev.row.Earnings = parseEarnings cd.Earnings) :
    ClientsInv st1.clients (log ++ [ev]) := by
  unfold clientUpsert at h
  split at h
  · simp at h
  · split at h
    case h_1 hfc =>
      rw [findClient, List.find?_eq_none] at hfc
      have hnotin : cd.Address ∉ st.clients.map (fun c => c.Address) := by
        intro hq
        obtain ⟨c, hc, hceq⟩ := List.mem_map.mp hq
        exact hfc c hc (beq_iff_eq.mpr hceq)
      split at h
      · simp at h
      · cases h
        constructor
        · rw [List.map_append, List.nodup_append]
          refine ⟨hin.uniq, by simp, ?_⟩
          intro x hx hx2
          simp only [List.map_cons, List.map_nil, List.mem_singleton] at hx2
          rw [hx2] at hx
          exact hnotin hx
        · intro c hc
          rcases List.mem_append.mp hc with hc | hc
          · have hcne : c.Address ≠ cd.Address := by
              intro hq
              exact hfc c hc (beq_iff_eq.mpr hq)
            have hmiss : ev.address ≠ c.Address := by
              rw [hev_addr]
              exact fun q => hcne q.symm
            rw [sumFor_append, sumFor_single_miss hmiss, add_zero]
            exact hin.total c hc
          · simp only [List.mem_singleton] at hc
            subst hc
            simp only
            rw [sumFor_append, sumFor_single_match hev_addr, hev_amt]
            rw [sumFor_of_filter_nil (hin.absent cd.Address hnotin), zero_add]
            exact (wrap64_eq_self (parseEarnings_lo _) (parseEarnings_hi _)).symm
        · intro a ha
          rw [List.map_append] at ha
          have ha1 : a ∉ st.clients.map (fun c => c.Address) :=
            fun q => ha (List.mem_append.mpr (Or.inl q))
          have ha2 : ev.address ≠ a := by
            rw [hev_addr]
            intro hq
            apply ha
            apply List.mem_append.mpr
            right
            simp [← hq]
          rw [List.filter_append, hin.absent a ha1]
          have hb2 : (ev.address == a) = false := beq_eq_false_iff_ne.mpr ha2
          simp [List.filter, hb2]
    case h_2 client hfc =>
      have hmem : client ∈ st.clients := List.mem_of_find?_eq_some hfc
      have haddr : client.Address = cd.Address := by
        have hp := List.find?_some hfc
        simpa using hp
      split at h
      · simp at h
      · cases h
        exact clientsInv_save hin hmem (haddr.trans hev_addr.symm) rfl
          (by rw [hev_amt])

/-! ## Preservation of the epoch-aggregate invariant -/

theorem epochEvents_single_miss {ca : String} {n : Int} {ev : AppliedEvent}
    (h : ¬(ev.row.ClientAddress = ca ∧ ev.epochNumber = n)) :
    epochEvents ca n [ev] = [] := by
  unfold epochEvents
  by_cases hca : ev.row.ClientAddress = ca
  · have hn : ev.epochNumber ≠ n := fun hn => h ⟨hca, hn⟩
    have hb : (ev.epochNumber == n) = false := beq_eq_false_iff_ne.mpr hn
    simp [List.filter, hca, hb]
  · have hb : (ev.row.ClientAddress == ca) = false := beq_eq_false_iff_ne.mpr hca
    simp [List.filter, hb]

theorem epochSumFor_of_nil {ca : String} {n : Int} {log : List AppliedEvent}
    (h : epochEvents ca n log = []) : epochSumFor ca n log = 0 := by
  unfold epochSumFor
  rw [h]
  simp

/-- Effect of `tx.Save` of an updated epoch row on the invariant: `r2` is the
row written back, agreeing with `r` on key and ID and carrying the
accumulated total. -/
theorem epochsInv_save {es : List EpochEarnings} {nid : Nat} {log : List AppliedEvent}
    {ev : AppliedEvent} {r r2 : EpochEarnings}
    (hin : EpochsInv es nid log)
    (hrmem : r ∈ es)
    (hkca : ev.row.ClientAddress = r.ClientAddress)
    (hken : ev.epochNumber = r.EpochNumber)
    (hCA : r2.ClientAddress = r.ClientAddress) (hEN : r2.EpochNumber = r.EpochNumber)
    (hID : r2.ID = r.ID)
    (hTot : r2.TotalEarnings = wrap64 (r.TotalEarnings + ev.row.Earnings)) :
    EpochsInv (es.map (fun e => if e.ID == r.ID then r2 else e)) nid (log ++ [ev]) := by
  have hg : ∀ e ∈ es, (e.ID == r.ID) = true → e = r := by
    intro e he hb
    exact List.inj_on_of_nodup_map hin.uniqId he hrmem (beq_iff_eq.mp hb)
  have hkeys : ∀ e ∈ es,
      ((if (e.ID == r.ID) = true then r2 else e).ClientAddress,
       (if (e.ID == r.ID) = true then r2 else e).EpochNumber)
        = (e.ClientAddress, e.EpochNumber) := by
    intro e he
    by_cases hb : (e.ID == r.ID) = true
    · rw [if_pos hb, hg e he hb, hCA, hEN]
    · rw [if_neg hb]
  have hids : ∀ e ∈ es,
      (if (e.ID == r.ID) = true then r2 else e).ID = e.ID := by
    intro e he
    by_cases hb : (e.ID == r.ID) = true
    · rw [if_pos hb, hID]
      exact (beq_iff_eq.mp hb).symm
    · rw [if_neg hb]
  refine ⟨?_, ?_, ?_, ?_, ?_⟩
  · simp only [List.map_map]
    rw [List.map_congr_left (fun e he => by
      simp only [Function.comp_apply]
      exact hkeys e he)]
    exact hin.uniqKey
  · simp only [List.map_map]
    rw [List.map_congr_left (fun e he => by
      simp only [Function.comp_apply]
      exact hids e he)]
    exact hin.uniqId
  · intro x hx
    obtain ⟨e, he, rfl⟩ := List.mem_map.mp hx
    rw [hids e he]
    exact hin.idLt e he
  · intro x hx
    obtain ⟨e, he, rfl⟩ := List.mem_map.mp hx
    by_cases hb : (e.ID == r.ID) = true
    · rw [if_pos hb]
      have htot := hin.total r hrmem
      rw [hTot, hCA, hEN, epochSumFor_append, epochSumFor_single_match hkca hken,
        htot, wrap64_wrap_add]
    · rw [if_neg hb]
      have hkey_ne : ¬(e.ClientAddress = r.ClientAddress
          ∧ e.EpochNumber = r.EpochNumber) := by
        rintro ⟨q1, q2⟩
        have heq : e = r := by
          refine List.inj_on_of_nodup_map hin.uniqKey he hrmem ?_
          rw [q1, q2]
        apply hb
        rw [heq]
        simp
      have hmiss : ¬(ev.row.ClientAddress = e.ClientAddress
          ∧ ev.epochNumber = e.EpochNumber) := by
        rintro ⟨q1, q2⟩
        exact hkey_ne ⟨q1 ▸ hkca, q2 ▸ hken⟩
      rw [epochSumFor_append, epochSumFor_single_miss hmiss, add_zero]
      exact hin.total e he
  · intro ca2 n2 hk
    simp only [List.map_map] at hk
    rw [List.map_congr_left (fun e he => by
      simp only [Function.comp_apply]
      exact hkeys e he)] at hk
    have hk2 : (ca2, n2) ≠ (r.ClientAddress, r.EpochNumber) := by
      intro hq
      apply hk
      rw [hq]
      exact List.mem_map_of_mem _ hrmem
    unfold epochEvents
    rw [List.filter_append]
    have h1 := hin.absent ca2 n2 hk
    unfold epochEvents at h1
    rw [h1]
    have hmiss : ¬(ev.row.ClientAddress = ca2 ∧ ev.epochNumber = n2) := by
      rintro ⟨q1, q2⟩
      apply hk2
      rw [← q1, ← q2, hkca, hken]
    have h2 := epochEvents_single_miss hmiss
    unfold epochEvents at h2
    rw [h2]
    simp

theorem epochsInv_upsert {f : DbFails} {now : Int} {st : DBState} {ca : String}
    {v : Int} {ep : EpochInfo} {st3 : DBState} {log : List AppliedEvent}
    {ev : AppliedEvent}
    (hin : EpochsInv st.epochs st.nextEpochId log)
    (hup : upsertEpochEarnings f now st ca v ep = some st3)
    (hca : ev.row.ClientAddress = ca) (hn : ev.epochNumber = ep.CurrentEpoch)
    (hamt : ev.row.Earnings = v)
    (hlo : int64Lo ≤ v) (hhi : v ≤ int64Hi) :
    EpochsInv st3.epochs st3.nextEpochId (log ++ [ev]) := by
  unfold upsertEpochEarnings at hup
  split at hup
  · simp at hup
  · split at hup
    case h_1 hfe =>
      rw [findEpoch, List.find?_eq_none] at hfe
      have hkey_notin : (ca, ep.CurrentEpoch)
          ∉ st.epochs.map (fun e => (e.ClientAddress, e.EpochNumber)) := by
        intro hq
        obtain ⟨e, he, heq⟩ := List.mem_map.mp hq
        have h1 : e.ClientAddress = ca := congrArg Prod.fst heq
        have h2 : e.EpochNumber = ep.CurrentEpoch := congrArg Prod.snd heq
        exact hfe e he (by rw [h1, h2]; simp)
      split at hup
      · simp at hup
      · cases hup
        refine ⟨?_, ?_, ?_, ?_, ?_⟩
        · rw [List.map_append, List.nodup_append]
          refine ⟨hin.uniqKey, by simp, ?_⟩
          intro x hx hx2
          simp only [List.map_cons, List.map_nil, List.mem_singleton] at hx2
          rw [hx2] at hx
          exact hkey_notin hx
        · rw [List.map_append, List.nodup_append]
          refine ⟨hin.uniqId, by simp, ?_⟩
          intro x hx hx2
          simp only [List.map_cons, List.map_nil, List.mem_singleton] at hx2
          obtain ⟨e, he, heq⟩ := List.mem_map.mp hx
          have hlt := hin.idLt e he
          have hx2b : x = st.nextEpochId := hx2
          omega
        · intro e he
          rcases List.mem_append.mp he with he | he
          · have := hin.idLt e he
            show e.ID < st.nextEpochId + 1
            omega
          · simp only [List.mem_singleton] at he
            subst he
            show st.nextEpochId < st.nextEpochId + 1
            omega
        · intro e he
          rcases List.mem_append.mp he with he | he
          · have hmiss : ¬(ev.row.ClientAddress = e.ClientAddress
                ∧ ev.epochNumber = e.EpochNumber) := by
              rintro ⟨q1, q2⟩
              refine hfe e he ?_
              rw [← q1, ← q2, hca, hn]
              simp
            rw [epochSumFor_append, epochSumFor_single_miss hmiss, add_zero]
            exact hin.total e he
          · simp only [List.mem_singleton] at he
            subst he
            show v = wrap64 (epochSumFor ca ep.CurrentEpoch (log ++ [ev]))
            rw [epochSumFor_append, epochSumFor_single_match hca hn, hamt]
            rw [epochSumFor_of_nil (hin.absent ca ep.CurrentEpoch hkey_notin), zero_add]
            exact (wrap64_eq_self hlo hhi).symm
        · intro ca2 n2 hk
          rw [List.map_append] at hk
          have hk1 : (ca2, n2) ∉ st.epochs.map (fun e => (e.ClientAddress, e.EpochNumber)) :=
            fun q => hk (List.mem_append.mpr (Or.inl q))
          have hk2 : (ca2, n2) ≠ (ca, ep.CurrentEpoch) := by
            intro hq
            apply hk
            apply List.mem_append.mpr
            right
            simp [hq]
          unfold epochEvents
          rw [List.filter_append]
          have h1 := hin.absent ca2 n2 hk1
          unfold epochEvents at h1
          rw [h1]
          have hmiss : ¬(ev.row.ClientAddress = ca2 ∧ ev.epochNumber = n2) := by
            rintro ⟨q1, q2⟩
            apply hk2
            rw [← q1, ← q2, hca, hn]
          have h2 := epochEvents_single_miss hmiss
          unfold epochEvents at h2
          rw [h2]
          simp
    case h_2 r hfr =>
      have hrmem : r ∈ st.epochs := List.mem_of_find?_eq_some hfr
      have hpred := List.find?_some hfr
      rw [Bool.and_eq_true] at hpred
      have hrCA : r.ClientAddress = ca := beq_iff_eq.mp hpred.1
      have hrEN : r.EpochNumber = ep.CurrentEpoch := beq_iff_eq.mp hpred.2
      split at hup
      · simp at hup
      · cases hup
        exact epochsInv_save hin hrmem (hca.trans hrCA.symm) (hn.trans hrEN.symm)
          rfl rfl rfl (by rw [hamt])

/-! ## Per-event and per-run preservation of the full invariant -/

theorem fullInv_processOneEvent (sl : List (Option String)) (ep : EpochInfo)
    (i : Nat) (now : Int) (raw : RawClientData) (f : DbFails) (st : DBState)
    (log : List AppliedEvent) (h : FullInv st log) :
    FullInv (processOneEvent st i raw f sl ep now).1
      (log ++ ((processOneEvent st i raw f sl ep now).2).toList) := by
  cases raw with
  | notString => simpa [processOneEvent] using h
  | badJSON => simpa [processOneEvent] using h
  | decoded cd =>
    simp only [processOneEvent]
    cases hcu : clientUpsert f st cd (resolveSolanaAddress sl i cd)
        (parseEarnings cd.Earnings) now with
    | none => simpa using h
    | some st1 =>
      have hcf := clientUpsert_frame hcu
      show FullInv (finishEvent f st st1 cd (parseEarnings cd.Earnings) ep now).1
        (log ++ ((finishEvent f st st1 cd (parseEarnings cd.Earnings) ep now).2).toList)
      unfold finishEvent
      by_cases hce : f.createEarning = true
      · rw [if_pos hce]
        simpa using h
      · rw [if_neg hce]
        split
        next hup => simpa using h
        next st3 hup =>
          obtain ⟨hc, he, hr⟩ := h
          have huf := upsertEpochEarnings_frame hup
          refine ⟨?_, ?_, ?_⟩
          · have h1 : st3.clients = st1.clients := huf.1
            rw [h1]
            exact clientsInv_clientUpsert hc hcu rfl rfl
          · refine epochsInv_upsert ?_ hup rfl rfl rfl
              (parseEarnings_lo _) (parseEarnings_hi _)
            show EpochsInv st1.epochs st1.nextEpochId log
            rw [hcf.2.1, hcf.2.2]
            exact he
          · have h2 : st3.earnings = st1.earnings
                ++ [{ ClientAddress := cd.SolanaAddress,
                      Earnings := parseEarnings cd.Earnings, Timestamp := now }] := huf.2
            rw [h2, hcf.1, hr, List.map_append]
            rfl

theorem fullInv_processEvents (sl : List (Option String)) (ep : EpochInfo)
    (clock : Nat → Int) :
    ∀ (bs : List (RawClientData × DbFails)) (i : Nat) (st : DBState)
      (log : List AppliedEvent), FullInv st log →
      FullInv (processEvents sl ep clock i st bs).1
        (log ++ (processEvents sl ep clock i st bs).2) := by
  intro bs
  induction bs with
  | nil =>
    intro i st log h
    simpa [processEvents] using h
  | cons hd rest ih =>
    intro i st log h
    obtain ⟨raw, f⟩ := hd
    simp only [processEvents]
    rw [← List.append_assoc]
    exact ih (i + 1) _ _ (fullInv_processOneEvent sl ep i (clock i) raw f st log h)

theorem fullInv_processMessage (m : MessageInput) (st : DBState)
    (log : List AppliedEvent) (h : FullInv st log) :
    FullInv (processMessage m st).1 (log ++ (processMessage m st).2) := by
  unfold processMessage
  cases m.epochFetch with
  | none => simpa using h
  | some epochInfo =>
    exact fullInv_processEvents m.solanaAddressList epochInfo m.clock
      m.clientDataList 0 st log h

theorem fullInv_processMessages :
    ∀ (ms : List MessageInput) (st : DBState) (log : List AppliedEvent),
      FullInv st log →
      FullInv (processMessages ms st).1 (log ++ (processMessages ms st).2) := by
  intro ms
  induction ms with
  | nil =>
    intro st log h
    simpa [processMessages] using h
  | cons m rest ih =>
    intro st log h
    simp only [processMessages]
    rw [← List.append_assoc]
    exact ih _ _ (fullInv_processMessage m st log h)

/-- The reconciliation invariant of any run of the ingestion pipeline from an
empty store. -/
theorem fullInv_run (ms : List MessageInput) :
    FullInv (processMessages ms emptyDB).1 (processMessages ms emptyDB).2 := by
  have h := fullInv_processMessages ms emptyDB [] fullInv_empty
  simpa using h

/-! ## Success-path characterization lemmas -/

theorem clientUpsert_noFails_of_some {f : DbFails} {st : DBState} {cd : ClientData}
    {sa : String} {v ts : Int} {st1 : DBState}
    (h : clientUpsert f st cd sa v ts = some st1) :
    clientUpsert noFails st cd sa v ts = some st1 := by
  unfold clientUpsert at h ⊢
  split at h
  · simp at h
  · split at h
    case h_1 hfc =>
      split at h
      · simp at h
      · rw [if_neg (by decide), if_neg (by decide)]
        exact h
    case h_2 client hfc =>
      split at h
      · simp at h
      · rw [if_neg (by decide), if_neg (by decide)]
        exact h

theorem upsertEpochEarnings_noFails_of_some {f : DbFails} {now : Int} {st : DBState}
    {ca : String} {v : Int} {ep : EpochInfo} {st3 : DBState}
    (h : upsertEpochEarnings f now st ca v ep = some st3) :
    upsertEpochEarnings noFails now st ca v ep = some st3 := by
  unfold upsertEpochEarnings at h ⊢
  split at h
  · simp at h
  · split at h
    case h_1 hfe =>
      split at h
      · simp at h
      · rw [if_neg (by decide), if_neg (by decide)]
        exact h
    case h_2 r hfe =>
      split at h
      · simp at h
      · rw [if_neg (by decide), if_neg (by decide)]
        exact h

theorem clientUpsert_noFails_some (st : DBState) (cd : ClientData) (sa : String)
    (v ts : Int) :
    ∃ st1, clientUpsert noFails st cd sa v ts = some st1
      ∧ st1.earnings = st.earnings := by
  unfold clientUpsert
  rw [if_neg (by decide)]
  cases hfc : findClient st cd.Address with
  | none =>
    rw [if_neg (by decide)]
    exact ⟨_, rfl, rfl⟩
  | some client =>
    rw [if_neg (by decide)]
    exact ⟨_, rfl, rfl⟩

theorem upsertEpochEarnings_noFails_some (now : Int) (st : DBState) (ca : String)
    (v : Int) (ep : EpochInfo) :
    ∃ st3, upsertEpochEarnings noFails now st ca v ep = some st3
      ∧ st3.earnings = st.earnings := by
  unfold upsertEpochEarnings
  rw [if_neg (by decide)]
  cases hfe : findEpoch st ca ep.CurrentEpoch with
  | none =>
    rw [if_neg (by decide)]
    exact ⟨_, rfl, rfl⟩
  | some r =>
    rw [if_neg (by decide)]
    exact ⟨_, rfl, rfl⟩

/-- A well-formed decoded event processed with no store failures always
commits, adding exactly one `ClientEarning` row. -/
theorem processOneEvent_noFails_commits (st : DBState) (i : Nat) (cd : ClientData)
    (sl : List (Option String)) (ep : EpochInfo) (now : Int) :
    ∃ st3 ev, processOneEvent st i (.decoded cd) noFails sl ep now = (st3, some ev)
      ∧ st3.earnings.length = st.earnings.length + 1 := by
  simp only [processOneEvent]
  obtain ⟨st1, hcu, hearn1⟩ := clientUpsert_noFails_some st cd
    (resolveSolanaAddress sl i cd) (parseEarnings cd.Earnings) now
  rw [hcu]
  show ∃ st3 ev, finishEvent noFails st st1 cd (parseEarnings cd.Earnings) ep now
      = (st3, some ev) ∧ st3.earnings.length = st.earnings.length + 1
  unfold finishEvent
  rw [if_neg (by decide)]
  obtain ⟨st3, hup, hearn3⟩ :=
    upsertEpochEarnings_noFails_some now
      { st1 with earnings := st1.earnings ++
        [{ ClientAddress := cd.SolanaAddress, Earnings := parseEarnings cd.Earnings, Timestamp := now }] }
      cd.SolanaAddress (parseEarnings cd.Earnings) ep
  rw [hup]
  refine ⟨st3, _, rfl, ?_⟩
  rw [hearn3]
  simp [hearn1]

/-- A batch consisting solely of well-formed decoded events, processed with
no store failures, commits every element. -/
theorem processEvents_all_good (sl : List (Option String)) (ep : EpochInfo)
    (clock : Nat → Int) :
    ∀ (cds : List ClientData) (i : Nat) (st : DBState),
      ((processEvents sl ep clock i st
          (cds.map (fun cd => (RawClientData.decoded cd, noFails)))).2).length
        = cds.length ∧
      ((processEvents sl ep clock i st
          (cds.map (fun cd => (RawClientData.decoded cd, noFails)))).1).earnings.length
        = st.earnings.length + cds.length := by
  intro cds
  induction cds with
  | nil =>
    intro i st
    simp [processEvents]
  | cons cd rest ih =>
    intro i st
    simp only [List.map_cons, processEvents]
    obtain ⟨st3, ev, heq, hlen⟩ := processOneEvent_noFails_commits st i cd sl ep (clock i)
    rw [heq]
    obtain ⟨hih1, hih2⟩ := ih (i + 1) st3
    constructor
    · simp only [Option.toList_some, List.singleton_append, List.length_cons]
      rw [hih1]
    · simp only [List.length_cons]
      omega

/-! ## clientTotal characterizations -/

theorem find?_map_of_pred_eq {α : Type} (g : α → α) (p : α → Bool) (l : List α)
    (h : ∀ x ∈ l, p (g x) = p x) : (l.map g).find? p = (l.find? p).map g := by
  induction l with
  | nil => rfl
  | cons x xs ih =>
    have hx := h x (List.mem_cons_self x xs)
    by_cases hpx : p x = true
    · rw [List.map_cons, List.find?_cons_of_pos _ (by rw [hx]; exact hpx),
        List.find?_cons_of_pos _ hpx]
      rfl
    · rw [List.map_cons, List.find?_cons_of_neg _ (by simp [hx, hpx]),
        List.find?_cons_of_neg _ (by simpa using hpx)]
      exact ih (fun y hy => h y (List.mem_cons_of_mem x hy))

theorem find?_append_singleton {α : Type} (p : α → Bool) (l : List α) (x : α) :
    (l ++ [x]).find? p
      = match l.find? p with
        | some y => some y
        | none => if p x then some x else none := by
  induction l with
  | nil =>
    by_cases hx : p x = true
    · simp [List.find?, hx]
    · simp [List.find?, hx]
  | cons y ys ih =>
    by_cases hy : p y = true
    · rw [List.cons_append, List.find?_cons_of_pos _ hy, List.find?_cons_of_pos _ hy]
    · rw [List.cons_append, List.find?_cons_of_neg _ (by simpa using hy),
        List.find?_cons_of_neg _ (by simpa using hy)]
      exact ih

theorem findClient_saveClientRow (st : DBState) (u : Client) (a : String) :
    findClient (saveClientRow st u) a
      = (findClient st a).map (fun r => if r.Address == u.Address then u else r) := by
  unfold findClient saveClientRow
  apply find?_map_of_pred_eq
  intro r _
  by_cases hb : (r.Address == u.Address) = true
  · rw [if_pos hb, eq_of_beq hb]
  · rw [if_neg hb]

theorem clientTotal_saveClientRow (st : DBState) (u : Client) (a : String) :
    clientTotal (saveClientRow st u) a
      = match findClient st a with
        | none => 0
        | some r => if r.Address == u.Address then u.TotalLifetimeEarnings
                    else r.TotalLifetimeEarnings := by
  unfold clientTotal
  rw [findClient_saveClientRow]
  cases findClient st a with
  | none => rfl
  | some r =>
    by_cases hb : (r.Address == u.Address) = true
    · have hp : r.Address = u.Address := eq_of_beq hb
      simp [hb, hp]
    · have hp : ¬(r.Address = u.Address) := fun q => hb (beq_iff_eq.mpr q)
      simp [hb, hp]

theorem clientTotal_append_one (st : DBState) (x : Client) (a : String) :
    clientTotal { st with clients := st.clients ++ [x] } a
      = match findClient st a with
        | some r => r.TotalLifetimeEarnings
        | none => if x.Address == a then x.TotalLifetimeEarnings else 0 := by
  unfold clientTotal findClient
  simp only
  rw [find?_append_singleton]
  cases st.clients.find? (fun c => c.Address == a) with
  | some r => rfl
  | none =>
    by_cases hb : (x.Address == a) = true
    · simp [hb]
    · simp [hb]

/-- The client upsert never decreases `clientTotal` when the parsed amount is
non-negative and no signed-64-bit overflow occurs. -/
theorem clientTotal_clientUpsert_mono {f : DbFails} {st : DBState} {cd : ClientData}
    {sa : String} {ts : Int} {st1 : DBState} {a : String}
    (h : clientUpsert f st cd sa (parseEarnings cd.Earnings) ts = some st1)
    (hlo : int64Lo ≤ clientTotal st a)
    (hv0 : 0 ≤ parseEarnings cd.Earnings)
    (hvhi : clientTotal st a + parseEarnings cd.Earnings ≤ int64Hi) :
    clientTotal st a ≤ clientTotal st1 a := by
  unfold clientUpsert at h
  split at h
  · simp at h
  · split at h
    case h_1 hfc =>
      split at h
      · simp at h
      · cases h
        rw [clientTotal_append_one]
        cases hfa : findClient st a with
        | some r =>
          have hct : clientTotal st a = r.TotalLifetimeEarnings := by
            unfold clientTotal
            rw [hfa]
          rw [hct]
        | none =>
          have h0 : clientTotal st a = 0 := by
            unfold clientTotal
            rw [hfa]
          rw [h0]
          show (0 : Int) ≤ if (cd.Address == a) = true then parseEarnings cd.Earnings else 0
          split
          · exact hv0
          · exact le_refl _
    case h_2 client hfc =>
      split at h
      · simp at h
      · cases h
        rw [clientTotal_saveClientRow]
        cases hfa : findClient st a with
        | none =>
          have h0 : clientTotal st a = 0 := by
            unfold clientTotal
            rw [hfa]
          rw [h0]
        | some r =>
          have hct : clientTotal st a = r.TotalLifetimeEarnings := by
            unfold clientTotal
            rw [hfa]
          have hclientAddr : client.Address = cd.Address := by
            have := List.find?_some hfc
            simpa using this
          have hra : r.Address = a := by
            have := List.find?_some hfa
            simpa using this
          show clientTotal st a ≤ if (r.Address == client.Address) = true
            then wrap64 (client.TotalLifetimeEarnings + parseEarnings cd.Earnings)
            else r.TotalLifetimeEarnings
          by_cases hb : r.Address = client.Address
          · have hreq : r = client := by
              have haeq : a = cd.Address := by rw [← hra, hb, hclientAddr]
              rw [haeq] at hfa
              rw [hfa] at hfc
              exact Option.some.inj hfc
            rw [if_pos (beq_iff_eq.mpr hb)]
            rw [hreq] at hct
            rw [hct] at hlo hvhi ⊢
            rw [wrap64_eq_self (by omega) (by omega)]
            omega
          · rw [if_neg (by simpa using hb)]
            rw [hct]

/-! ## Claim theorems -/

/-- C1: Reconciliation invariant — after any run of committed per-event
transactions from an empty store, every Client row's
`totalLifetimeEarnings` equals the sum of the `Earnings` amounts of the
EarningsRecord (ClientEarning) rows inserted by that client's committed
events (whenever that sum is representable in 64 bits), and the
`client_earnings` table consists exactly of those inserted rows — after N
applied events for a client, its total is the sum over the N corresponding
rows. -/
theorem C1_reconciliation_invariant (ms : List MessageInput) (c : Client)
    (hc : c ∈ (processMessages ms emptyDB).1.clients)
    (hlo : int64Lo ≤ sumFor c.Address (processMessages ms emptyDB).2)
    (hhi : sumFor c.Address (processMessages ms emptyDB).2 ≤ int64Hi) :
    c.TotalLifetimeEarnings = sumFor c.Address (processMessages ms emptyDB).2 ∧
    (processMessages ms emptyDB).1.earnings
      = ((processMessages ms emptyDB).2).map (fun ev => ev.row) := by
  obtain ⟨hcinv, _, hrows⟩ := fullInv_run ms
  refine ⟨?_, hrows⟩
  rw [hcinv.total c hc]
  exact wrap64_eq_self hlo hhi

/-- Witness for C1: a run of one message with two events for client `A1`
(5 + 7); the resulting row carries 12, the sum over its two rows. -/
theorem C1_reconciliation_witness :
    (⟨"A1", "PK", "S", 12, 0⟩ : Client) ∈ (processMessages [exMsgTwo] emptyDB).1.clients ∧
    ((⟨"A1", "PK", "S", 12, 0⟩ : Client).TotalLifetimeEarnings
        = sumFor "A1" (processMessages [exMsgTwo] emptyDB).2 ∧
      (processMessages [exMsgTwo] emptyDB).1.earnings
        = ((processMessages [exMsgTwo] emptyDB).2).map (fun ev => ev.row)) :=
  ⟨by decide, C1_reconciliation_invariant [exMsgTwo] _ (by decide) (by decide) (by decide)⟩

/-- C2: Earnings normalization — `parseEarnings` strips the `"usoar"`
currency suffix and parses the remainder as a base-10 integer, yielding 0 on
any parse failure (never an error): `"500000usoar" ↦ 500000`,
`"abcusoar" ↦ 0`, `"" ↦ 0`, and the suffix-less numeric `"42" ↦ 42`. -/
theorem C2_parseEarnings_normalization :
    parseEarnings "500000usoar" = 500000 ∧ parseEarnings "abcusoar" = 0 ∧
    parseEarnings "" = 0 ∧ parseEarnings "42" = 42 ∧
    (∀ s : String, parseInt64 (trimSuffix s "usoar") = none → parseEarnings s = 0) := by
  refine ⟨by decide, by decide, by decide, by decide, ?_⟩
  intro s hs
  unfold parseEarnings
  rw [hs]

/-- Witness for C2: the universally quantified failure clause applied to the
unparsable string `"abc"`. -/
theorem C2_parseEarnings_witness :
    parseInt64 (trimSuffix "abc" "usoar") = none ∧ parseEarnings "abc" = 0 :=
  ⟨by decide, C2_parseEarnings_normalization.2.2.2.2 "abc" (by decide)⟩

/-- C5: Single-epoch-row invariant — after any run from an empty store the
`epoch_earnings` table has at most one row per
`(client_address, epoch_number)` key, and each row's `totalEarnings` equals
the sum of the amounts of the committed events bucketed to that key
(whenever that sum is representable): created with the first event's amount,
accumulated by each subsequent event of the same epoch. -/
theorem C5_single_epoch_row (ms : List MessageInput) (e : EpochEarnings)
    (he : e ∈ (processMessages ms emptyDB).1.epochs)
    (hlo : int64Lo ≤ epochSumFor e.ClientAddress e.EpochNumber
      (processMessages ms emptyDB).2)
    (hhi : epochSumFor e.ClientAddress e.EpochNumber
      (processMessages ms emptyDB).2 ≤ int64Hi) :
    (((processMessages ms emptyDB).1.epochs).map
        (fun r => (r.ClientAddress, r.EpochNumber))).Nodup ∧
    e.TotalEarnings = epochSumFor e.ClientAddress e.EpochNumber
      (processMessages ms emptyDB).2 := by
  obtain ⟨_, heinv, _⟩ := fullInv_run ms
  refine ⟨heinv.uniqKey, ?_⟩
  rw [heinv.total e he]
  exact wrap64_eq_self hlo hhi

/-- Witness for C5: in the two-event run the single epoch row for
`("S", 33)` accumulates 5 + 7 = 12. -/
theorem C5_single_epoch_witness :
    (⟨0, "S", 33, 1000, 86400000001000, 12, 0, 0⟩ : EpochEarnings)
        ∈ (processMessages [exMsgTwo] emptyDB).1.epochs ∧
    ((((processMessages [exMsgTwo] emptyDB).1.epochs).map
        (fun r => (r.ClientAddress, r.EpochNumber))).Nodup ∧
      (⟨0, "S", 33, 1000, 86400000001000, 12, 0, 0⟩ : EpochEarnings).TotalEarnings
        = epochSumFor "S" 33 (processMessages [exMsgTwo] emptyDB).2) :=
  ⟨by decide, C5_single_epoch_row [exMsgTwo] _ (by decide) (by decide) (by decide)⟩

/-- C4: Atomicity of applyEvent — for any store-failure pattern, processing
one element either leaves the database exactly as it was at `Begin` with the
event dropped (full rollback: result `(st, none)`), or produces exactly the
all-steps-succeed transaction (the same result as with no failure at all,
all of client upsert, earnings insert and epoch upsert applied); and a
dropped event is invisible: the loop continues with the next element from
the unchanged state. -/
theorem C4_applyEvent_atomicity :
    (∀ (st : DBState) (i : Nat) (raw : RawClientData) (f : DbFails)
        (sl : List (Option String)) (ep : EpochInfo) (now : Int),
      processOneEvent st i raw f sl ep now = (st, none) ∨
      processOneEvent st i raw f sl ep now
        = processOneEvent st i raw noFails sl ep now) ∧
    (∀ (st : DBState) (i : Nat) (raw : RawClientData) (f : DbFails)
        (sl : List (Option String)) (ep : EpochInfo) (clock : Nat → Int)
        (rest : List (RawClientData × DbFails)),
      processOneEvent st i raw f sl ep (clock i) = (st, none) →
      processEvents sl ep clock i st ((raw, f) :: rest)
        = processEvents sl ep clock (i + 1) st rest) := by
  constructor
  · intro st i raw f sl ep now
    cases raw with
    | notString => left; rfl
    | badJSON => left; rfl
    | decoded cd =>
      simp only [processOneEvent]
      cases hcu : clientUpsert f st cd (resolveSolanaAddress sl i cd)
          (parseEarnings cd.Earnings) now with
      | none => left; rfl
      | some st1 =>
        rw [clientUpsert_noFails_of_some hcu]
        show finishEvent f st st1 cd (parseEarnings cd.Earnings) ep now = (st, none)
          ∨ finishEvent f st st1 cd (parseEarnings cd.Earnings) ep now
            = finishEvent noFails st st1 cd (parseEarnings cd.Earnings) ep now
        unfold finishEvent
        by_cases hce : f.createEarning = true
        · left
          rw [if_pos hce]
        · rw [if_neg hce, if_neg (by decide)]
          cases hup : upsertEpochEarnings f now
              { st1 with earnings := st1.earnings ++
                [{ ClientAddress := cd.SolanaAddress,
                   Earnings := parseEarnings cd.Earnings, Timestamp := now }] }
              cd.SolanaAddress (parseEarnings cd.Earnings) ep with
          | none => left; rfl
          | some st3 =>
            right
            rw [upsertEpochEarnings_noFails_of_some hup]
  · intro st i raw f sl ep clock rest h
    simp only [processEvents, h]
    simp

/-- Witness for C4: a malformed element is dropped with the store untouched
and the loop simply moves on to the rest of the batch. -/
theorem C4_applyEvent_atomicity_witness :
    processEvents [] exEpoch (fun _ => 0) 0 emptyDB [(RawClientData.badJSON, noFails)]
      = processEvents [] exEpoch (fun _ => 0) 1 emptyDB [] :=
  C4_applyEvent_atomicity.2 emptyDB 0 RawClientData.badJSON noFails [] exEpoch
    (fun _ => 0) [] (by decide)

/-- C3: Partial-failure isolation — in a batch of K per-client payload
strings of which exactly one is malformed JSON (and the store itself does
not fail), exactly K − 1 events are applied: the ghost log has K − 1
entries and exactly K − 1 `ClientEarning` rows are added, so no transaction
is left half-committed. -/
theorem C3_partial_failure_isolation (before after : List ClientData)
    (st : DBState) (sl : List (Option String)) (ep : EpochInfo)
    (clock : Nat → Int) (i : Nat) :
    ((processEvents sl ep clock i st
        (before.map (fun cd => (RawClientData.decoded cd, noFails))
          ++ [(RawClientData.badJSON, noFails)]
          ++ after.map (fun cd => (RawClientData.decoded cd, noFails)))).2).length
      = before.length + after.length ∧
    ((processEvents sl ep clock i st
        (before.map (fun cd => (RawClientData.decoded cd, noFails))
          ++ [(RawClientData.badJSON, noFails)]
          ++ after.map (fun cd => (RawClientData.decoded cd, noFails)))).1).earnings.length
      = st.earnings.length + (before.length + after.length) := by
  induction before generalizing i st with
  | nil =>
    simp only [List.map_nil, List.nil_append, List.singleton_append, processEvents,
      processOneEvent]
    have hgood := processEvents_all_good sl ep clock after (i + 1) st
    simpa using hgood
  | cons cd cds ih =>
    simp only [List.map_cons, List.cons_append, processEvents]
    obtain ⟨st3, ev, heq, hlen⟩ :=
      processOneEvent_noFails_commits st i cd sl ep (clock i)
    rw [heq]
    obtain ⟨hih1, hih2⟩ := ih st3 (i + 1)
    simp only [List.append_eq] at hih1 hih2 ⊢
    constructor
    · simp only [Option.toList_some, List.singleton_append, List.length_cons]
      omega
    · simp only [List.length_cons]
      omega

/-- C6 (counterexample): `totalLifetimeEarnings` is *not* an unsigned,
monotonically non-decreasing accumulator — it is a signed `int64` and
`parseEarnings` accepts negative numerals, so an event carrying
`"-5usoar"` decreases a client's total (here from 10 to 5). -/
theorem C6_monotonicity_counterexample :
    clientTotal exStCredited "A1" = 10 ∧
    clientTotal (processOneEvent exStCredited 1
      (.decoded { Address := "A1", Earnings := "-5usoar", PubKey := "PK",
                  SolanaAddress := "S" })
      noFails [] exEpoch 1).1 "A1" = 5 ∧
    ¬(clientTotal exStCredited "A1"
        ≤ clientTotal (processOneEvent exStCredited 1
            (.decoded { Address := "A1", Earnings := "-5usoar", PubKey := "PK",
                        SolanaAddress := "S" })
            noFails [] exEpoch 1).1 "A1") := by
  refine ⟨by decide, by decide, by decide⟩

/-- C6 (amended): `totalLifetimeEarnings` is a signed 64-bit accumulator; a
client's total is non-decreasing across an applied event whenever the
event's parsed amount is non-negative (in particular for malformed earnings
strings, which parse to 0) and the 64-bit addition does not overflow; an
event carrying a negative numeral can decrease it. -/
theorem C6_lifetime_monotone_nonneg (st : DBState) (i : Nat) (raw : RawClientData)
    (f : DbFails) (sl : List (Option String)) (ep : EpochInfo) (now : Int)
    (a : String)
    (hlo : int64Lo ≤ clientTotal st a)
    (hv : ∀ cd, raw = RawClientData.decoded cd → 0 ≤ parseEarnings cd.Earnings ∧
      clientTotal st a + parseEarnings cd.Earnings ≤ int64Hi) :
    clientTotal st a ≤ clientTotal (processOneEvent st i raw f sl ep now).1 a := by
  cases raw with
  | notString => exact le_refl _
  | badJSON => exact le_refl _
  | decoded cd =>
    obtain ⟨hv0, hvhi⟩ := hv cd rfl
    simp only [processOneEvent]
    cases hcu : clientUpsert f st cd (resolveSolanaAddress sl i cd)
        (parseEarnings cd.Earnings) now with
    | none => exact le_refl _
    | some st1 =>
      have hmono := clientTotal_clientUpsert_mono hcu hlo hv0 hvhi
      show clientTotal st a
        ≤ clientTotal (finishEvent f st st1 cd (parseEarnings cd.Earnings) ep now).1 a
      unfold finishEvent
      by_cases hce : f.createEarning = true
      · rw [if_pos hce]
      · rw [if_neg hce]
        split
        next hup => exact le_refl _
        next st3 hup =>
          have huf := upsertEpochEarnings_frame hup
          have hcl : st3.clients = st1.clients := huf.1
          show clientTotal st a ≤ clientTotal st3 a
          have heq : clientTotal st3 a = clientTotal st1 a := by
            unfold clientTotal findClient
            rw [hcl]
          rw [heq]
          exact hmono

/-- Witness for C6 (amended): a non-negative event (`"5usoar"`) applied to
the credited state does not decrease the total. -/
theorem C6_lifetime_monotone_witness :
    clientTotal exStCredited "A1"
      ≤ clientTotal (processOneEvent exStCredited 1
          (.decoded { Address := "A1", Earnings := "5usoar", PubKey := "PK",
                      SolanaAddress := "S" })
          noFails [] exEpoch 1).1 "A1" :=
  C6_lifetime_monotone_nonneg exStCredited 1
    (.decoded { Address := "A1", Earnings := "5usoar", PubKey := "PK",
                SolanaAddress := "S" })
    noFails [] exEpoch 1 "A1" (by decide)
    (fun cd hcd => by cases hcd; exact ⟨by decide, by decide⟩)

/-- C9: Epoch window frame — when the `(clientKey, epochNumber)` row already
exists, a further event in that epoch rewrites only `totalEarnings` and
`updatedAt`; the row keeps the `startTime`, `endTime` and `createdAt`
seeded at creation, regardless of the epoch window the oracle reports now
(schedule shifts are ignored); and at creation the window is seeded with
`endTime = startTime + duration` from the oracle result. -/
theorem C9_epoch_window_frame :
    (∀ (f : DbFails) (now : Int) (st : DBState) (ca : String) (v : Int)
        (ep : EpochInfo) (r : EpochEarnings) (st3 : DBState),
      findEpoch st ca ep.CurrentEpoch = some r →
      upsertEpochEarnings f now st ca v ep = some st3 →
      st3.epochs.length = st.epochs.length ∧
      ∀ e ∈ st3.epochs, e ∈ st.epochs ∨
        (e.ID = r.ID ∧ e.ClientAddress = r.ClientAddress
          ∧ e.EpochNumber = r.EpochNumber
          ∧ e.StartTime = r.StartTime ∧ e.EndTime = r.EndTime
          ∧ e.CreatedAt = r.CreatedAt
          ∧ e.TotalEarnings = wrap64 (r.TotalEarnings + v) ∧ e.UpdatedAt = now)) ∧
    (∀ (f : DbFails) (now : Int) (st : DBState) (ca : String) (v : Int)
        (ep : EpochInfo) (st3 : DBState),
      findEpoch st ca ep.CurrentEpoch = none →
      upsertEpochEarnings f now st ca v ep = some st3 →
      ∀ e ∈ st3.epochs, e ∈ st.epochs ∨
        (e.ClientAddress = ca ∧ e.EpochNumber = ep.CurrentEpoch
          ∧ e.StartTime = ep.CurrentEpochStart
          ∧ e.EndTime = ep.CurrentEpochStart + ep.Duration
          ∧ e.TotalEarnings = v ∧ e.CreatedAt = now ∧ e.UpdatedAt = now)) := by
  constructor
  · intro f now st ca v ep r st3 hfr hup
    unfold upsertEpochEarnings at hup
    split at hup
    · simp at hup
    · split at hup
      case h_1 hfe =>
        rw [hfr] at hfe
        simp at hfe
      case h_2 r2 hfe =>
        have hr2 : r = r2 := Option.some.inj (hfr.symm.trans hfe)
        subst hr2
        split at hup
        · simp at hup
        · cases hup
          constructor
          · simp
          · intro e he
            simp only [List.mem_map] at he
            obtain ⟨x, hx, rfl⟩ := he
            by_cases hb : (x.ID == r.ID) = true
            · rw [if_pos hb]
              exact Or.inr ⟨rfl, rfl, rfl, rfl, rfl, rfl, rfl, rfl⟩
            · rw [if_neg hb]
              exact Or.inl hx
  · intro f now st ca v ep st3 hfe0 hup
    unfold upsertEpochEarnings at hup
    split at hup
    · simp at hup
    · split at hup
      case h_2 r2 hfe =>
        rw [hfe0] at hfe
        simp at hfe
      case h_1 hfe =>
        split at hup
        · simp at hup
        · cases hup
          intro e he
          rcases List.mem_append.mp he with he | he
          · exact Or.inl he
          · simp only [List.mem_singleton] at he
            subst he
            exact Or.inr ⟨rfl, rfl, rfl, rfl, rfl, rfl, rfl⟩

/-- Witness for C9: an existing row `("S", 33)` with window `[1000, 2000]`
is updated under an oracle whose window has shifted to start `999999`; only
the total and `updatedAt` change, the stored window survives. -/
theorem C9_epoch_window_frame_witness :
    findEpoch exStEpoch "S" exEpochShifted.CurrentEpoch = some exEpochRow ∧
    upsertEpochEarnings noFails 50 exStEpoch "S" 7 exEpochShifted = some exStEpochAfter ∧
    (exStEpochAfter.epochs.length = exStEpoch.epochs.length ∧
      ∀ e ∈ exStEpochAfter.epochs, e ∈ exStEpoch.epochs ∨
        (e.ID = exEpochRow.ID ∧ e.ClientAddress = exEpochRow.ClientAddress
          ∧ e.EpochNumber = exEpochRow.EpochNumber
          ∧ e.StartTime = exEpochRow.StartTime ∧ e.EndTime = exEpochRow.EndTime
          ∧ e.CreatedAt = exEpochRow.CreatedAt
          ∧ e.TotalEarnings = wrap64 (exEpochRow.TotalEarnings + 7)
          ∧ e.UpdatedAt = 50)) :=
  ⟨by decide, by decide,
    C9_epoch_window_frame.1 noFails 50 exStEpoch "S" 7 exEpochShifted exEpochRow
      exStEpochAfter (by decide) (by decide)⟩

/-! ## Row provenance helpers for the keying claim -/

theorem upsertEpochEarnings_rows_key {f : DbFails} {now : Int} {st : DBState}
    {ca : String} {v : Int} {ep : EpochInfo} {st3 : DBState}
    (hup : upsertEpochEarnings f now st ca v ep = some st3) :
    ∀ e ∈ st3.epochs, e ∈ st.epochs ∨ e.ClientAddress = ca := by
  unfold upsertEpochEarnings at hup
  split at hup
  · simp at hup
  · split at hup
    case h_1 hfe =>
      split at hup
      · simp at hup
      · cases hup
        intro e he
        rcases List.mem_append.mp he with he | he
        · exact Or.inl he
        · simp only [List.mem_singleton] at he
          subst he
          exact Or.inr rfl
    case h_2 r hfe =>
      have hrCA : r.ClientAddress = ca := by
        have hp := List.find?_some hfe
        rw [Bool.and_eq_true] at hp
        exact beq_iff_eq.mp hp.1
      split at hup
      · simp at hup
      · cases hup
        intro e he
        simp only [List.mem_map] at he
        obtain ⟨x, hx, rfl⟩ := he
        by_cases hb : (x.ID == r.ID) = true
        · rw [if_pos hb]
          exact Or.inr hrCA
        · rw [if_neg hb]
          exact Or.inl hx

theorem clientUpsert_rows_solana {f : DbFails} {st : DBState} {cd : ClientData}
    {sa : String} {v ts : Int} {st1 : DBState}
    (h : clientUpsert f st cd sa v ts = some st1) (hsa : sa ≠ "") :
    ∀ c ∈ st1.clients, c ∈ st.clients ∨ c.SolanaAddress = sa := by
  unfold clientUpsert at h
  split at h
  · simp at h
  · split at h
    case h_1 hfc =>
      split at h
      · simp at h
      · cases h
        intro c hc
        rcases List.mem_append.mp hc with hc | hc
        · exact Or.inl hc
        · simp only [List.mem_singleton] at hc
          subst hc
          exact Or.inr rfl
    case h_2 client hfc =>
      split at h
      · simp at h
      · cases h
        intro c hc
        unfold saveClientRow at hc
        simp only [List.mem_map] at hc
        obtain ⟨x, hx, rfl⟩ := hc
        split
        · refine Or.inr ?_
          show (if (sa != "") = true then sa else client.SolanaAddress) = sa
          rw [if_pos (by simpa using hsa)]
        · exact Or.inl hx

/-- C10: Keying asymmetry — for a committed event whose embedded
`solanaAddress` field is empty while the parallel `solana_address` array
supplies a non-empty value `s` at its index, the inserted
`ClientEarning` row and any created/updated `epoch_earnings` row are keyed
by the *embedded* field, i.e. by the empty string, while the Client row
written by the same transaction stores the resolved value `s` in
`SolanaAddress`. -/
theorem C10_keying_asymmetry (st : DBState) (i : Nat) (cd : ClientData)
    (f : DbFails) (sl : List (Option String)) (ep : EpochInfo) (now : Int)
    (s : String) (ev : AppliedEvent)
    (hemb : cd.SolanaAddress = "")
    (hlen : i < sl.length) (hgd : sl.getD i none = some s) (hs : s ≠ "")
    (hcommit : (processOneEvent st i (.decoded cd) f sl ep now).2 = some ev) :
    ev.row.ClientAddress = "" ∧
    (∀ e ∈ (processOneEvent st i (.decoded cd) f sl ep now).1.epochs,
      e ∈ st.epochs ∨ e.ClientAddress = "") ∧
    (∀ c ∈ (processOneEvent st i (.decoded cd) f sl ep now).1.clients,
      c ∈ st.clients ∨ c.SolanaAddress = s) := by
  have hres : resolveSolanaAddress sl i cd = s := by
    unfold resolveSolanaAddress
    rw [hemb, hgd]
    simp [hlen]
  simp only [processOneEvent] at hcommit ⊢
  cases hcu : clientUpsert f st cd (resolveSolanaAddress sl i cd)
      (parseEarnings cd.Earnings) now with
  | none =>
    rw [hcu] at hcommit
    simp at hcommit
  | some st1 =>
    rw [hcu] at hcommit
    dsimp only at hcommit ⊢
    have hcf := clientUpsert_frame hcu
    unfold finishEvent at hcommit ⊢
    by_cases hce : f.createEarning = true
    · rw [if_pos hce] at hcommit
      simp at hcommit
    · rw [if_neg hce] at hcommit ⊢
      split at hcommit
      next hup => simp at hcommit
      next st3 hup =>
        dsimp only at hcommit ⊢
        have hev : ev
            = ⟨cd.Address, ep.CurrentEpoch, ⟨cd.SolanaAddress, parseEarnings cd.Earnings, now⟩⟩ :=
          (Option.some.inj hcommit).symm
        refine ⟨?_, ?_, ?_⟩
        · rw [hev, ← hemb]
        · intro e he
          rcases upsertEpochEarnings_rows_key hup e he with h1 | h1
          · have h2 : e ∈ st1.epochs := h1
            rw [hcf.2.1] at h2
            exact Or.inl h2
          · rw [hemb] at h1
            exact Or.inr h1
        · intro c hc
          have huf := upsertEpochEarnings_frame hup
          have hc1 : c ∈ st1.clients := by
            have := huf.1 ▸ hc
            exact this
          rcases clientUpsert_rows_solana hcu (by rw [hres]; exact hs) c hc1 with h1 | h1
          · exact Or.inl h1
          · rw [hres] at h1
            exact Or.inr h1

/-- Witness for C10: the empty embedded field keys the earnings row by `""`
while the client row stores the array-supplied `"SOL"`. -/
theorem C10_keying_asymmetry_witness :
    (processOneEvent emptyDB 0
        (.decoded { Address := "A1", Earnings := "5usoar", PubKey := "PK",
                    SolanaAddress := "" })
        noFails [some "SOL"] exEpoch 0).2
      = some (⟨"A1", 33, ⟨"", 5, 0⟩⟩ : AppliedEvent) ∧
    ((⟨"A1", 33, ⟨"", 5, 0⟩⟩ : AppliedEvent).row.ClientAddress = "" ∧
      (∀ e ∈ (processOneEvent emptyDB 0
          (.decoded { Address := "A1", Earnings := "5usoar", PubKey := "PK",
                      SolanaAddress := "" })
          noFails [some "SOL"] exEpoch 0).1.epochs,
        e ∈ emptyDB.epochs ∨ e.ClientAddress = "") ∧
      (∀ c ∈ (processOneEvent emptyDB 0
          (.decoded { Address := "A1", Earnings := "5usoar", PubKey := "PK",
                      SolanaAddress := "" })
          noFails [some "SOL"] exEpoch 0).1.clients,
        c ∈ emptyDB.clients ∨ c.SolanaAddress = "SOL")) :=
  ⟨by decide,
    C10_keying_asymmetry emptyDB 0
      { Address := "A1", Earnings := "5usoar", PubKey := "PK", SolanaAddress := "" }
      noFails [some "SOL"] exEpoch 0 "SOL" _ (by decide) (by decide) (by decide)
      (by decide) (by decide)⟩

/-- C7 (counterexample): in the `main.go` variant that derives liveness from
the Client row's `LastChallengeTime` (the one matching the spec's
`lastActivityTime`), a last activity 3 minutes ago yields the status string
`"immobile"` (with issue `"Latency"`), not a "degraded" status label. -/
theorem C7_status_counterexample :
    (GetMinerStatusFromClient (some ⟨"A1", "PK", "S", 0, 1000⟩)
        (1000 + 3 * minuteNs)).status = "immobile" ∧
    (GetMinerStatusFromClient (some ⟨"A1", "PK", "S", 0, 1000⟩)
        (1000 + 3 * minuteNs)).status ≠ "Degraded" ∧
    (GetMinerStatusFromClient (some ⟨"A1", "PK", "S", 0, 1000⟩)
        (1000 + 3 * minuteNs)).status ≠ "degraded" := by
  refine ⟨by decide, by decide, by decide⟩

/-- C7 (amended): both `GetMinerStatus` variants derive liveness from the
recency of the last activity instant with thresholds at 2 and 5 minutes —
at most 2 minutes yields `"Up"`, strictly between 2 and 5 minutes yields
`"Degraded"`/`"HighLatency"` in the variant reading the earnings log but
`"immobile"`/`"Latency"` in the variant reading the Client row, and more
than 5 minutes — or no record at all — yields `"Down"`/`"Offline"`. -/
theorem C7_status_thresholds :
    (∀ (c : Client) (now : Int), 0 < c.LastChallengeTime →
      (now - c.LastChallengeTime ≤ 2 * minuteNs →
        (GetMinerStatusFromClient (some c) now).status = "Up") ∧
      (2 * minuteNs < now - c.LastChallengeTime →
        now - c.LastChallengeTime < 5 * minuteNs →
        GetMinerStatusFromClient (some c) now = ⟨"immobile", ["Latency"]⟩) ∧
      (5 * minuteNs < now - c.LastChallengeTime →
        (GetMinerStatusFromClient (some c) now).status = "Down")) ∧
    (∀ now : Int, GetMinerStatusFromClient none now = ⟨"Down", ["Offline"]⟩) ∧
    (∀ (t now : Int) (st : DBState) (w : String),
      fetchLastChallengeTime st w = t → 0 < t →
      (now - t ≤ 2 * minuteNs →
        (GetMinerStatusFromEarnings st w now).status = "Up") ∧
      (2 * minuteNs < now - t → now - t < 5 * minuteNs →
        GetMinerStatusFromEarnings st w now = ⟨"Degraded", ["HighLatency"]⟩) ∧
      (5 * minuteNs < now - t →
        (GetMinerStatusFromEarnings st w now).status = "Down")) ∧
    (∀ (st : DBState) (w : String) (now : Int), fetchLastChallengeTime st w = 0 →
      GetMinerStatusFromEarnings st w now = ⟨"Down", ["Offline"]⟩) := by
  have hm : (0 : Int) < minuteNs := by
    unfold minuteNs
    norm_num
  refine ⟨?_, ?_, ?_, ?_⟩
  · intro c now hpos
    have h0 : ¬((c.LastChallengeTime == 0) = true) := by
      simp only [beq_iff_eq]
      omega
    refine ⟨?_, ?_, ?_⟩
    · intro hd
      unfold GetMinerStatusFromClient
      dsimp only
      rw [if_neg h0, if_pos hd]
    · intro h1 h2
      unfold GetMinerStatusFromClient
      dsimp only
      rw [if_neg h0, if_neg (by omega), if_pos ⟨h1, h2⟩]
    · intro hd
      unfold GetMinerStatusFromClient
      dsimp only
      rw [if_neg h0, if_neg (by omega), if_neg (by rintro ⟨q1, q2⟩; omega)]
  · intro now
    rfl
  · intro t now st w hfetch hpos
    have h0 : ¬((t == 0) = true) := by
      simp only [beq_iff_eq]
      omega
    refine ⟨?_, ?_, ?_⟩
    · intro hd
      unfold GetMinerStatusFromEarnings
      rw [hfetch, if_neg h0, if_pos hd]
    · intro h1 h2
      unfold GetMinerStatusFromEarnings
      rw [hfetch, if_neg h0, if_neg (by omega), if_pos ⟨h1, h2⟩]
    · intro hd
      unfold GetMinerStatusFromEarnings
      rw [hfetch, if_neg h0, if_neg (by omega), if_neg (by rintro ⟨q1, q2⟩; omega)]
  · intro st w now hf
    unfold GetMinerStatusFromEarnings
    rw [hf, if_pos (by decide)]

/-- Witness for C7 (amended): activity one minute ago is `"Up"` in the
Client-row variant. -/
theorem C7_status_thresholds_witness :
    (GetMinerStatusFromClient (some ⟨"A1", "PK", "S", 0, 1000⟩)
        (1000 + minuteNs)).status = "Up" :=
  (C7_status_thresholds.1 ⟨"A1", "PK", "S", 0, 1000⟩ (1000 + minuteNs)
    (by decide)).1 (by decide)

/-- Auxiliary induction for C8: from any `Reconnecting` state, if some later
connect attempt succeeds, the loop reaches `Subscribed`. -/
theorem connIter_liveness_aux (readOk connectOk : Nat → Bool) :
    ∀ (g : Nat) (s : ConnState), s.phase = ConnPhase.reconnecting →
      ∀ n, s.connIdx ≤ n → n - s.connIdx = g → connectOk n = true →
      ∃ k, (connIter readOk connectOk k s).phase = ConnPhase.subscribed := by
  intro g
  induction g with
  | zero =>
    intro s hs n hle hg hc
    have hn : n = s.connIdx := by omega
    rw [hn] at hc
    refine ⟨1, ?_⟩
    show (connStep readOk connectOk s).phase = ConnPhase.subscribed
    simp [connStep, hs, hc]
  | succ g ih =>
    intro s hs n hle hg hc
    by_cases hck : connectOk s.connIdx = true
    · refine ⟨1, ?_⟩
      show (connStep readOk connectOk s).phase = ConnPhase.subscribed
      simp [connStep, hs, hck]
    · have hs' : connStep readOk connectOk s
          = { s with connIdx := s.connIdx + 1, sleptSeconds := s.sleptSeconds + 5 } := by
        simp [connStep, hs, hck]
      have hne : s.connIdx ≠ n := fun hq => hck (hq ▸ hc)
      obtain ⟨k, hk⟩ := ih
        { s with connIdx := s.connIdx + 1, sleptSeconds := s.sleptSeconds + 5 }
        hs n (by show s.connIdx + 1 ≤ n; omega)
        (by show n - (s.connIdx + 1) = g; omega) hc
      refine ⟨k + 1, ?_⟩
      show (connIter readOk connectOk k (connStep readOk connectOk s)).phase
        = ConnPhase.subscribed
      rw [hs']
      exact hk

/-- C8: Reconnect liveness — a failed read moves the loop to
`Reconnecting` without terminating it; every reconnection attempt is
preceded by exactly the fixed 5-second sleep; and from any `Reconnecting`
state, if any (finitely far away) connect attempt succeeds — i.e. after any
finite number of consecutive read/connect failures — the loop reaches the
`Subscribed` state again: no permanent give-up state is reachable. -/
theorem C8_reconnect_liveness :
    (∀ (readOk connectOk : Nat → Bool) (s : ConnState),
      s.phase = ConnPhase.subscribed → readOk s.readIdx = false →
      (connStep readOk connectOk s).phase = ConnPhase.reconnecting) ∧
    (∀ (readOk connectOk : Nat → Bool) (s : ConnState),
      s.phase = ConnPhase.reconnecting →
      (connStep readOk connectOk s).sleptSeconds = s.sleptSeconds + 5) ∧
    (∀ (readOk connectOk : Nat → Bool) (s : ConnState) (n : Nat),
      s.phase = ConnPhase.reconnecting → s.connIdx ≤ n → connectOk n = true →
      ∃ k, (connIter readOk connectOk k s).phase = ConnPhase.subscribed) := by
  refine ⟨?_, ?_, ?_⟩
  · intro readOk connectOk s hs hr
    simp [connStep, hs, hr]
  · intro readOk connectOk s hs
    by_cases hck : connectOk s.connIdx = true
    · simp [connStep, hs, hck]
    · simp [connStep, hs, hck]
  · intro readOk connectOk s n hs hle hc
    exact connIter_liveness_aux readOk connectOk (n - s.connIdx) s hs n hle rfl hc

/-- Witness for C8: with the first two connect attempts failing and the
third succeeding, the loop starting in `Reconnecting` reaches
`Subscribed`. -/
theorem C8_reconnect_liveness_witness :
    ∃ k, (connIter (fun _ => true) (fun n => n == 2) k
        ⟨ConnPhase.reconnecting, 0, 0, 0⟩).phase = ConnPhase.subscribed :=
  C8_reconnect_liveness.2.2 (fun _ => true) (fun n => n == 2)
    ⟨ConnPhase.reconnecting, 0, 0, 0⟩ 2 rfl (by decide) (by decide)

end SoarchainObserver
